import Mathlib

/-!
Verification development for the post-build class-name obfuscation pipeline
of the Astro-personal repository (`scripts/obfuscate.js`).

The pipeline is embedded shallowly: file contents are `List Char`, the
class mapping is an insertion-ordered association list `List (String × String)`,
and the regex-driven replacements of the embedded temp scripts are modelled
by deterministic scanners that mirror the semantics of the concrete regular
expressions appearing in the source.
-/

namespace AstroObfuscation

/-- The `.` class marker of CSS selectors. -/
def dot : Char := '.'

/-- The `"` quote character. -/
def dq : Char := '"'

/-- The `'` quote character (written via its code point). -/
def sq : Char := Char.ofNat 39

/-- Identifier-continuation characters of the extraction regex
`\.[a-zA-Z][a-zA-Z0-9_-]*(?![a-zA-Z0-9_-])` in `obfuscateCSS`:
`[a-zA-Z0-9_-]`. -/
def isIdentChar (c : Char) : Bool :=
  c.isAlpha || c.isDigit || c = '_' || c = '-'

/-- JavaScript regex word characters `\w = [A-Za-z0-9_]`, used by the
`\b` assertions of the markup and script rewrite regexes.  Note that `-`
is NOT a word character, so `\b` holds at a hyphen. -/
def isWordChar (c : Char) : Bool :=
  c.isAlpha || c.isDigit || c = '_'

/-- JavaScript regex whitespace (`\s`), restricted to its ASCII members. -/
def isJsSpace (c : Char) : Bool :=
  c = ' ' || c = '\t' || c = '\n' || c = '\r' || c = Char.ofNat 11 || c = Char.ofNat 12

/-- `startsWithList pat s` holds iff `pat` is a prefix of `s`
(the semantics of JavaScript `String.prototype.startsWith` on the
underlying character sequences). -/
def startsWithList : List Char → List Char → Bool
  | [], _ => true
  | _ :: _, [] => false
  | p :: ps, c :: cs => p = c && startsWithList ps cs

/-- `occursIn p s` holds iff `p` occurs as a contiguous substring of `s`. -/
def occursIn (p : List Char) : List Char → Bool
  | [] => startsWithList p []
  | c :: rest => startsWithList p (c :: rest) || occursIn p rest

/-- Digit characters of JavaScript `Number.prototype.toString(36)`:
`0`-`9` then `a`-`z`. -/
def digitChar36 (d : Nat) : Char :=
  if d < 10 then Char.ofNat (48 + d) else Char.ofNat (87 + d)

/-- Most-significant-first base-36 digit list of `n` (empty for `0`),
with fuel for structural termination. -/
def toB36Go : Nat → Nat → List Char
  | 0, _ => []
  | fuel + 1, n => if n = 0 then [] else toB36Go fuel (n / 36) ++ [digitChar36 (n % 36)]

/-- The character list produced by JavaScript `n.toString(36)` for a natural `n`. -/
def toB36List (n : Nat) : List Char :=
  if n = 0 then ['0'] else toB36Go n n

/-- The obfuscated token generated in `obfuscateCSS` for counter value `n`:
`'a' + counter.toString(36)`. -/
def obfName (n : Nat) : String :=
  String.mk ('a' :: toB36List n)

/-- The embedded ignore matcher of `obfuscateCSS`: a rule ending in `*`
matches any class starting with the rule's stem, any other rule matches
only the identical class name. -/
def shouldIgnore (classIgnore : List String) (className : String) : Bool :=
  classIgnore.any fun ignoreRule =>
    let ri := ignoreRule.toList
    if ri.getLast? = some '*' then startsWithList ri.dropLast className.toList
    else className = ignoreRule

/-- Alphabetically-initial inherited properties of `Object.prototype` in
JavaScript.  `classMapping` is created as an object literal, so
`classMapping[className]` is truthy for these names even when they were
never assigned; the extraction loop therefore skips them.  (The remaining
inherited properties begin with `_` and can never be produced by the
extraction regex, whose names begin with a letter.) -/
def protoProps : List String :=
  ["constructor", "hasOwnProperty", "isPrototypeOf", "propertyIsEnumerable",
   "toLocaleString", "toString", "valueOf"]

/-- First-match lookup in the insertion-ordered mapping (own properties of
the `classMapping` object). -/
def lookupKey (m : List (String × String)) (k : String) : Option String :=
  match m with
  | [] => none
  | (k2, v) :: rest => if k2 = k then some v else lookupKey rest k

/-- Truthiness of `classMapping[className]`: an own mapping entry (whose
values are always nonempty strings) or an inherited `Object.prototype`
property. -/
def mappingTruthy (m : List (String × String)) (k : String) : Bool :=
  (lookupKey m k).isSome || decide (k ∈ protoProps)

/-- State threaded through the CSS extraction loop: the insertion-ordered
`classMapping` and the token `counter` (starting at 1). -/
structure ObfState where
  mapping : List (String × String)
  counter : Nat
deriving DecidableEq, Repr

/-- Initial state of `obfuscateCSS`: empty mapping, counter 1. -/
def initState : ObfState := ⟨[], 1⟩

/-- Replace every (left-to-right, non-overlapping) occurrence of `pat` in
the text by `repl`: the semantics of `content.split(pat).join(repl)`.
Fuel-indexed for structural termination. -/
def replaceSubstrGo (pat repl : List Char) : Nat → List Char → List Char
  | 0, s => s
  | _ + 1, [] => []
  | fuel + 1, c :: rest =>
    if startsWithList pat (c :: rest) then
      repl ++ replaceSubstrGo pat repl fuel ((c :: rest).drop pat.length)
    else
      c :: replaceSubstrGo pat repl fuel rest

/-- `content.split(pat).join(repl)` on character lists. -/
def replaceSubstr (pat repl s : List Char) : List Char :=
  replaceSubstrGo pat repl s.length s

/-- One step of the embedded extraction loop of `obfuscateCSS`, for one
regex match `className` against the current state and current (already
partially rewritten) CSS text: skip when `classMapping[className]` is
truthy or an ignore rule matches; otherwise assign the next token and
replace `.className` by `.token` throughout the text. -/
def stepClass (classIgnore : List String) (acc : ObfState × List Char) (className : String) :
    ObfState × List Char :=
  let st := acc.1
  let content := acc.2
  if mappingTruthy st.mapping className then acc
  else if shouldIgnore classIgnore className then acc
  else
    let obfuscated := obfName st.counter
    (⟨st.mapping ++ [(className, obfuscated)], st.counter + 1⟩,
     replaceSubstr (dot :: className.toList) (dot :: obfuscated.toList) content)

/-- The class-selector scanner of `obfuscateCSS`: all matches of the global
regex `\.[a-zA-Z][a-zA-Z0-9_-]*(?![a-zA-Z0-9_-])`, in text order, each
returned without its leading dot.  The trailing negative lookahead is
automatically satisfied because the quantifier is greedy, so every match
is a dot, a letter, then the maximal run of identifier characters. -/
def cssScan : Nat → List Char → List String
  | 0, _ => []
  | _ + 1, [] => []
  | fuel + 1, c :: rest =>
    if c = dot then
      match rest with
      | [] => []
      | d :: rest2 =>
        if d.isAlpha then
          String.mk (d :: rest2.takeWhile isIdentChar) ::
            cssScan fuel (rest2.dropWhile isIdentChar)
        else
          cssScan fuel rest
    else
      cssScan fuel rest

/-- All class-selector matches of a CSS text. -/
def cssClassMatches (s : List Char) : List String :=
  cssScan s.length s

/-- Processing of one CSS file by the embedded extraction script:
fold the extraction step over the matches found in the original text. -/
def processFileCSS (classIgnore : List String) (st : ObfState) (content : List Char) :
    ObfState × List Char :=
  (cssClassMatches content).foldl (stepClass classIgnore) (st, content)

/-- The whole CSS phase over the list of CSS files, in file-processing
order, returning the final state and the rewritten file contents. -/
def obfuscateCSSRun (classIgnore : List String) : ObfState → List (List Char) →
    ObfState × List (List Char)
  | st, [] => (st, [])
  | st, f :: fs =>
    let r := processFileCSS classIgnore st f
    let rest := obfuscateCSSRun classIgnore r.1 fs
    (rest.1, r.2 :: rest.2)

/-- The embedded CSS obfuscation configuration of `obfuscate.js`
(lines 115-128 of the temp script template). -/
structure ObfConfig where
  enable : Bool
  lengthOpt : Nat
  classMethod : String
  classIgnore : List String
  fresh : Bool
  formatJson : Bool
  keepData : Bool
  showConfig : Bool
deriving Repr

/-- The hard-coded `classIgnore` list of the `AstroObfuscator` constructor. -/
def astroClassIgnore : List String :=
  ["astro-code", "astro-island", "flyonui", "btn", "card", "modal",
   "navbar", "dropdown", "tooltip", "hero", "container", "dark", "light",
   "theme-*", "icon", "iconify", "i-*", "animate-*", "transition-*",
   "sr-only", "not-sr-only", "print:*"]

/-- The embedded config record: `enable: true, length: 6, classMethod:
'random', classIgnore: ..., fresh: true, formatJson: true, keepData: true,
showConfig: false`. -/
def cssConfig : ObfConfig :=
  ⟨true, 6, "random", astroClassIgnore, true, true, true, false⟩

/-- `s.trim()` on character lists (ASCII whitespace). -/
def trimWs (s : List Char) : List Char :=
  ((s.dropWhile isJsSpace).reverse.dropWhile isJsSpace).reverse

/-- `s.replace(/\s+/g, ' ')`: every maximal whitespace run becomes one space. -/
def collapseWs : List Char → List Char
  | [] => []
  | [c] => if isJsSpace c then [' '] else [c]
  | c :: d :: rest =>
    if isJsSpace c && isJsSpace d then collapseWs (d :: rest)
    else (if isJsSpace c then ' ' else c) :: collapseWs (d :: rest)

/-- `x.trim().replace(/\s+/g, ' ')`, as applied by the markup-rewrite callbacks. -/
def trimCollapse (s : List Char) : List Char :=
  collapseWs (trimWs s)

/-- Whether position `p` of the quote-free attribute body `avail` carries an
occurrence of `key` surrounded by `\b` word boundaries, where `q` is the
character just before the body (the opening quote) and `qe` the character
just after it (the closing quote). -/
def occAt (q qe : Char) (key avail : List Char) (p : Nat) : Bool :=
  match key with
  | [] => false
  | k0 :: _ =>
    startsWithList key (avail.drop p) &&
    (isWordChar (if p = 0 then q else avail.getD (p - 1) q) != isWordChar k0) &&
    (isWordChar (key.getLastD k0) != isWordChar (avail.getD (p + key.length) qe))

/-- The `\b key \b` occurrence inside the attribute body selected by the
regex: the last boundary-correct occurrence when the first capture group is
greedy (`[^"']*`), the first one when it is lazy (`[^"']*?`). -/
def pickPos (greedy : Bool) (q qe : Char) (key avail : List Char) : Option Nat :=
  let ps := (List.range (avail.length + 1)).filter (occAt q qe key avail)
  if greedy then ps.getLast? else ps.head?

/-- The literal `class=` that each markup regex starts with. -/
def classEq : List Char := ['c', 'l', 'a', 's', 's', '=']

/-- Matcher for one markup class-attribute regex anchored at the head of
`s`.  `openQs` is the character class of the opening quote, `stops` the
set of characters excluded from the two capture groups (which is also the
character class of the closing quote), `emitQ` the quote the replacement
callback emits, and `greedy` selects the greedy (`classRegex1`) or lazy
(`classRegex2`/`classRegex3`) first group.  On success it returns the
callback's replacement text
`class=<emitQ> + trimCollapse(before + ' ' + obf + ' ' + after) + <emitQ>`
and the text following the match. -/
def tryClassAttr (greedy : Bool) (openQs stops : List Char) (emitQ : Char)
    (key obf : List Char) (s : List Char) : Option (List Char × List Char) :=
  if startsWithList classEq s then
    match s.drop 6 with
    | [] => none
    | q :: rest2 =>
      if openQs.contains q then
        let avail := rest2.takeWhile (fun c => !(stops.contains c))
        match rest2.dropWhile (fun c => !(stops.contains c)) with
        | [] => none
        | qe :: rest4 =>
          match pickPos greedy q qe key avail with
          | none => none
          | some p =>
            let before := avail.take p
            let after := avail.drop (p + key.length)
            some (classEq ++ [emitQ] ++
                    trimCollapse (before ++ [' '] ++ obf ++ [' '] ++ after) ++ [emitQ],
                  rest4)
      else none
  else none

/-- Global regex replacement: scan left to right, at each position either
apply the matcher (emitting its replacement, counting one replacement, and
continuing after the match) or keep the character.  Matches are
non-overlapping and replacements are not rescanned, exactly as for a
JavaScript global `String.prototype.replace`. -/
def scanRepl (try1 : List Char → Option (List Char × List Char)) :
    Nat → List Char → List Char × Nat
  | 0, s => (s, 0)
  | _ + 1, [] => ([], 0)
  | fuel + 1, c :: rest =>
    match try1 (c :: rest) with
    | some (repl, rem) =>
      let r := scanRepl try1 fuel rem
      (repl ++ r.1, r.2 + 1)
    | none =>
      let r := scanRepl try1 fuel rest
      (c :: r.1, r.2)

/-- Whether the matcher fires at any position of the text. -/
def scanHasMatch (try1 : List Char → Option (List Char × List Char)) :
    Nat → List Char → Bool
  | 0, _ => false
  | _ + 1, [] => false
  | fuel + 1, c :: rest => (try1 (c :: rest)).isSome || scanHasMatch try1 fuel rest

/-- One mapping entry applied to a markup file: `classRegex1` (either
quoting style, greedy), then `classRegex2` (double quotes, lazy), then
`classRegex3` (single quotes, lazy), accumulating the replacement count. -/
def applyHTMLEntry (acc : List Char × Nat) (kv : String × String) : List Char × Nat :=
  let key := kv.1.toList
  let obf := kv.2.toList
  let r1 := scanRepl (tryClassAttr true [dq, sq] [dq, sq] dq key obf) acc.1.length acc.1
  let r2 := scanRepl (tryClassAttr false [dq] [dq] dq key obf) r1.1.length r1.1
  let r3 := scanRepl (tryClassAttr false [sq] [sq] sq key obf) r2.1.length r2.1
  (r3.1, acc.2 + r1.2 + r2.2 + r3.2)

/-- The markup rewrite of one file: every mapping entry applied in
insertion order, returning the final text and the `changeCount`. -/
def obfuscateHTMLFile (classMapping : List (String × String)) (content : List Char) :
    List Char × Nat :=
  classMapping.foldl applyHTMLEntry (content, 0)

/-- Whether any of the three class-attribute regexes for mapping entry `kv`
matches anywhere in the text. -/
def htmlEntryHasMatch (kv : String × String) (content : List Char) : Bool :=
  let key := kv.1.toList
  let obf := kv.2.toList
  scanHasMatch (tryClassAttr true [dq, sq] [dq, sq] dq key obf) content.length content ||
  scanHasMatch (tryClassAttr false [dq] [dq] dq key obf) content.length content ||
  scanHasMatch (tryClassAttr false [sq] [sq] sq key obf) content.length content

/-- The method alternation `add|remove|toggle|contains` of the
`classList` rewrite regex. -/
def classListMethods : List (List Char) :=
  [['a', 'd', 'd'],
   ['r', 'e', 'm', 'o', 'v', 'e'],
   ['t', 'o', 'g', 'g', 'l', 'e'],
   ['c', 'o', 'n', 't', 'a', 'i', 'n', 's']]

/-- The literal `classList.` opening the classList rewrite regex. -/
def classListLit : List Char := ['c', 'l', 'a', 's', 's', 'L', 'i', 's', 't', '.']

/-- The literal `querySelector`. -/
def querySelectorLit : List Char :=
  ['q', 'u', 'e', 'r', 'y', 'S', 'e', 'l', 'e', 'c', 't', 'o', 'r']

/-- The literal `className`. -/
def classNameLit : List Char := ['c', 'l', 'a', 's', 's', 'N', 'a', 'm', 'e']

/-- Matcher for
`(classList\.(add|remove|toggle|contains)\(\s*['"])(key)(['"\)])`
anchored at the head of `s`: the callback substitutes the mapped token for
the string-literal argument, keeping prefix and the single closing
quote-or-parenthesis character. -/
def tryClassList (key obf : List Char) (s : List Char) : Option (List Char × List Char) :=
  if startsWithList classListLit s then
    let rest := s.drop classListLit.length
    match classListMethods.filter (fun m => startsWithList (m ++ ['(']) rest) with
    | [] => none
    | meth :: _ =>
      let rest2 := rest.drop (meth.length + 1)
      let ws := rest2.takeWhile isJsSpace
      match rest2.dropWhile isJsSpace with
      | [] => none
      | q :: rest3 =>
        if q = dq || q = sq then
          if startsWithList key rest3 then
            match rest3.drop key.length with
            | [] => none
            | d :: rest4 =>
              if d = dq || d = sq || d = ')' then
                some (classListLit ++ meth ++ ['('] ++ ws ++ [q] ++ obf ++ [d], rest4)
              else none
          else none
        else none
  else none

/-- Matcher for `(querySelector(?:All)?\(\s*['"]\.)(key)(['"\)])` anchored
at the head of `s`. -/
def tryQuerySelector (key obf : List Char) (s : List Char) : Option (List Char × List Char) :=
  if startsWithList querySelectorLit s then
    let rest := s.drop querySelectorLit.length
    let allLit : List Char := ['A', 'l', 'l', '(']
    if startsWithList allLit rest || startsWithList ['('] rest then
      let opener := if startsWithList allLit rest then allLit else ['(']
      let rest2 := rest.drop opener.length
      let ws := rest2.takeWhile isJsSpace
      match rest2.dropWhile isJsSpace with
      | [] => none
      | q :: rest3 =>
        if q = dq || q = sq then
          match rest3 with
          | [] => none
          | c :: rest4 =>
            if c = dot then
              if startsWithList key rest4 then
                match rest4.drop key.length with
                | [] => none
                | d :: rest5 =>
                  if d = dq || d = sq || d = ')' then
                    some (querySelectorLit ++ opener ++ ws ++ [q, dot] ++ obf ++ [d], rest5)
                  else none
              else none
            else none
        else none
    else none
  else none

/-- Matcher for
`(className\s*=\s*["'])([^"']*\b)(key)(\b[^"']*["'])` anchored at the head
of `s`: greedy second group, so the last boundary-correct occurrence of
`key` inside the quote-free literal is the one substituted, in place. -/
def tryClassNameAssign (key obf : List Char) (s : List Char) : Option (List Char × List Char) :=
  if startsWithList classNameLit s then
    let rest := s.drop classNameLit.length
    let ws1 := rest.takeWhile isJsSpace
    match rest.dropWhile isJsSpace with
    | [] => none
    | e :: rest2 =>
      if e = '=' then
        let ws2 := rest2.takeWhile isJsSpace
        match rest2.dropWhile isJsSpace with
        | [] => none
        | q :: rest3 =>
          if q = dq || q = sq then
            let avail := rest3.takeWhile (fun c => !([dq, sq].contains c))
            match rest3.dropWhile (fun c => !([dq, sq].contains c)) with
            | [] => none
            | qe :: rest4 =>
              match pickPos true q qe key avail with
              | none => none
              | some p =>
                let before := avail.take p
                let after := avail.drop (p + key.length)
                some (classNameLit ++ ws1 ++ ['='] ++ ws2 ++ [q] ++
                        before ++ obf ++ after ++ [qe], rest4)
          else none
      else none
  else none

/-- One mapping entry applied to a script file: the `classList`, then
`querySelector`, then `className` global replacements, accumulating the
`changeCount`. -/
def applyJSEntry (acc : List Char × Nat) (kv : String × String) : List Char × Nat :=
  let key := kv.1.toList
  let obf := kv.2.toList
  let r1 := scanRepl (tryClassList key obf) acc.1.length acc.1
  let r2 := scanRepl (tryQuerySelector key obf) r1.1.length r1.1
  let r3 := scanRepl (tryClassNameAssign key obf) r2.1.length r2.1
  (r3.1, acc.2 + r1.2 + r2.2 + r3.2)

/-- The script rewrite of one file's text: every mapping entry applied in
insertion order, returning the candidate new text and the `changeCount`. -/
def obfuscateJSFile (classMapping : List (String × String)) (content : List Char) :
    List Char × Nat :=
  classMapping.foldl applyJSEntry (content, 0)

/-- The per-file write guard of `obfuscateJavaScript`: the file is written
back only when `changeCount > 0`.  Returns the on-disk content after the
phase and whether a write happened. -/
def processJSFile (classMapping : List (String × String)) (content : List Char) :
    List Char × Bool :=
  let r := obfuscateJSFile classMapping content
  if 0 < r.2 then (r.1, true) else (content, false)

/-- Whether any of the three script idiom regexes for mapping entry `kv`
matches anywhere in the text. -/
def jsEntryHasMatch (kv : String × String) (content : List Char) : Bool :=
  let key := kv.1.toList
  let obf := kv.2.toList
  scanHasMatch (tryClassList key obf) content.length content ||
  scanHasMatch (tryQuerySelector key obf) content.length content ||
  scanHasMatch (tryClassNameAssign key obf) content.length content

/-- The persisted mapping artifact `main.json`: the `classes` map in
insertion order, the generation `timestamp`, and `totalClasses`. -/
structure MappingData where
  classes : List (String × String)
  timestamp : String
  totalClasses : Nat
deriving DecidableEq, Repr

/-- Construction of the artifact in `obfuscateCSS`:
`{ classes: classMapping, timestamp: ..., totalClasses: Object.keys(classMapping).length }`. -/
def mkMappingData (classMapping : List (String × String)) (timestamp : String) : MappingData :=
  ⟨classMapping, timestamp, (classMapping.map Prod.fst).length⟩

/-- The observable state of the obfuscation-data directory: whether the
directory exists and the content of `main.json`, if present. -/
structure DataDir where
  dirExists : Bool
  mainJson : Option MappingData
deriving DecidableEq, Repr

/-- The save step at the end of `obfuscateCSS`: `mkdirSync(..., { recursive:
true })` when the directory is absent, then `writeFileSync` of the artifact. -/
def saveMapping (d : DataDir) (classMapping : List (String × String)) (timestamp : String) :
    DataDir :=
  let d1 := if d.dirExists then d else { d with dirExists := true }
  { d1 with mainJson := some (mkMappingData classMapping timestamp) }

/-- The markup-rewrite phase body: when `main.json` is absent the temp
script returns before touching any file; otherwise every markup file is
rewritten with the loaded mapping.  The phase itself never throws once the
temp script runs to completion. -/
def obfuscateHTMLRun (mainJson : Option MappingData) (htmlFiles : List (List Char)) :
    List (List Char) × Except String Unit :=
  match mainJson with
  | none => (htmlFiles, Except.ok ())
  | some md =>
    (htmlFiles.map fun content => (obfuscateHTMLFile md.classes content).1, Except.ok ())

/-- The script-rewrite phase body: when `main.json` is absent the temp
script returns before touching any file; otherwise every script file goes
through the guarded rewrite. -/
def obfuscateJavaScriptRun (mainJson : Option MappingData) (jsFiles : List (List Char)) :
    List (List Char) × Except String Unit :=
  match mainJson with
  | none => (jsFiles, Except.ok ())
  | some md =>
    (jsFiles.map fun content => (processJSFile md.classes content).1, Except.ok ())

/-- Phases of the `run()` driver, in execution order. -/
inductive PhaseTag where
  | cleanup
  | copy
  | css
  | html
  | js
  | report
deriving DecidableEq, Repr

/-- Outcomes of the underlying work of each fallible phase, before the
phase methods' own `catch` handling is applied. -/
structure PhaseOps where
  copyOp : Except String Unit
  cssOp : Except String Unit
  htmlOp : Except String Unit
  jsOp : Except String Unit
deriving Repr

/-- `cleanupPreviousBuild` catches and logs every error: it never rethrows. -/
def cleanupPhase (op : Except String Unit) : Except String Unit :=
  match op with
  | Except.error _ => Except.ok ()
  | Except.ok _ => Except.ok ()

/-- `copyDistToObfuscated` rethrows after logging. -/
def copyPhase (op : Except String Unit) : Except String Unit := op

/-- `obfuscateCSS` rethrows after logging. -/
def cssPhase (op : Except String Unit) : Except String Unit := op

/-- `obfuscateHTML` rethrows after logging. -/
def htmlPhase (op : Except String Unit) : Except String Unit := op

/-- `obfuscateJavaScript` logs the error and does not rethrow
("JS obfuscation is optional, don't throw"). -/
def jsPhase (op : Except String Unit) : Except String Unit :=
  match op with
  | Except.error _ => Except.ok ()
  | Except.ok _ => Except.ok ()

/-- `generateReport` catches and logs every error: it never rethrows. -/
def reportPhase (op : Except String Unit) : Except String Unit :=
  match op with
  | Except.error _ => Except.ok ()
  | Except.ok _ => Except.ok ()

/-- The `run()` driver: the phases execute strictly in sequence inside one
`try`; the first uncaught exception aborts the run with `process.exit(1)`.
Returns the process exit code and the list of phases that were entered. -/
def runPipeline (ops : PhaseOps) : Nat × List PhaseTag :=
  match copyPhase ops.copyOp with
  | Except.error _ => (1, [PhaseTag.cleanup, PhaseTag.copy])
  | Except.ok _ =>
    match cssPhase ops.cssOp with
    | Except.error _ => (1, [PhaseTag.cleanup, PhaseTag.copy, PhaseTag.css])
    | Except.ok _ =>
      match htmlPhase ops.htmlOp with
      | Except.error _ => (1, [PhaseTag.cleanup, PhaseTag.copy, PhaseTag.css, PhaseTag.html])
      | Except.ok _ =>
        match jsPhase ops.jsOp with
        | Except.error _ => (1, [PhaseTag.cleanup, PhaseTag.copy, PhaseTag.css,
                                 PhaseTag.html, PhaseTag.js])
        | Except.ok _ => (0, [PhaseTag.cleanup, PhaseTag.copy, PhaseTag.css,
                              PhaseTag.html, PhaseTag.js, PhaseTag.report])

/-- Value of a base-36 digit character (inverse of `digitChar36`). -/
def c36val (c : Char) : Nat :=
  if c.toNat ≤ 57 then c.toNat - 48 else c.toNat - 87

/-- Number denoted by a most-significant-first base-36 digit string. -/
def b36val (l : List Char) : Nat :=
  l.foldl (fun a c => a * 36 + c36val c) 0

/-- Whether the extraction loop skips candidate `x` given the already-seen
keys `seen`: already mapped, shadowed by an inherited object property, or
matched by an ignore rule (the three reasons `obfuscateCSS` does not record
a candidate). -/
def skipName (ign seen : List String) (x : String) : Bool :=
  decide (x ∈ seen) || decide (x ∈ protoProps) || shouldIgnore ign x

/-- The sequence of candidates that the extraction loop records, in order:
first occurrences of candidates that are not skipped. -/
def discoverGo (ign : List String) : List String → List String → List String
  | _, [] => []
  | seen, x :: xs =>
    if skipName ign seen x then discoverGo ign seen xs
    else x :: discoverGo ign (x :: seen) xs

/-- All class-selector candidates over the file list, in file-processing
order then text order. -/
def cssCandidates (files : List (List Char)) : List String :=
  (files.map cssClassMatches).flatten

/-- Invariant of the extraction state: keys are distinct, the counter is
one past the mapping size, and the tokens are exactly
`obfName 1, obfName 2, ...` in insertion order. -/
def goodState (st : ObfState) : Prop :=
  (st.mapping.map Prod.fst).Nodup ∧
  st.counter = st.mapping.length + 1 ∧
  st.mapping.map Prod.snd = (List.range st.mapping.length).map (fun i => obfName (i + 1))

/-- A valid extracted class name: a letter followed by identifier characters
(the language of the extraction regex `[a-zA-Z][a-zA-Z0-9_-]*`). -/
def validName (name : List Char) : Bool :=
  match name with
  | [] => false
  | d :: _ => d.isAlpha && name.all isIdentChar

/-- Whether the text does not begin with an identifier character (the
negative lookahead `(?![a-zA-Z0-9_-])` of the extraction regex, and the
stopping condition of a maximal identifier run). -/
def notIdentHead (l : List Char) : Bool :=
  match l with
  | [] => true
  | c :: _ => !(isIdentChar c)

/-- The stylesheet of the substring-safety example. -/
def c1Stylesheet : List Char := ".btn\x7bcolor:red\x7d.btn-primary\x7bcolor:blue\x7d".toList

/-- The markup of the substring-safety example. -/
def c1Markup : List Char := "<div class=\"btn btn-primary\"></div>".toList

/-- The CSS phase applied to the substring-safety example with no ignore rules. -/
def c1Run : ObfState × List Char := processFileCSS [] initState c1Stylesheet

/-- The markup phase applied to the substring-safety example's markup with
the mapping produced by its CSS phase. -/
def c1HTML : List Char × Nat := obfuscateHTMLFile c1Run.1.mapping c1Markup

/-- The `jsPhase` wrapper never propagates an error (the `catch` in
`obfuscateJavaScript` does not rethrow). -/
theorem jsPhase_eq_ok (op : Except String Unit) : jsPhase op = Except.ok () := by
  cases op <;> rfl

/-- C6: an error in the copy, stylesheet-rewrite or markup-rewrite phase
aborts the run with exit code 1 before any later phase executes, while an
error in the script-rewrite phase is absorbed by that phase's catch and the
run still reaches the report phase and exits with code 0. -/
theorem failure_fatality_split (ops : PhaseOps) :
    (∀ e, ops.copyOp = Except.error e →
      runPipeline ops = (1, [PhaseTag.cleanup, PhaseTag.copy])) ∧
    (∀ e, ops.copyOp = Except.ok () → ops.cssOp = Except.error e →
      runPipeline ops = (1, [PhaseTag.cleanup, PhaseTag.copy, PhaseTag.css])) ∧
    (∀ e, ops.copyOp = Except.ok () → ops.cssOp = Except.ok () →
      ops.htmlOp = Except.error e →
      runPipeline ops = (1, [PhaseTag.cleanup, PhaseTag.copy, PhaseTag.css, PhaseTag.html])) ∧
    (∀ e, jsPhase (Except.error e) = Except.ok ()) ∧
    (ops.copyOp = Except.ok () → ops.cssOp = Except.ok () → ops.htmlOp = Except.ok () →
      runPipeline ops = (0, [PhaseTag.cleanup, PhaseTag.copy, PhaseTag.css,
                             PhaseTag.html, PhaseTag.js, PhaseTag.report]) ∧
      PhaseTag.report ∈ (runPipeline ops).2) := by
  refine ⟨?_, ?_, ?_, ?_, ?_⟩
  · intro e h
    simp [runPipeline, copyPhase, h]
  · intro e h1 h2
    simp [runPipeline, copyPhase, cssPhase, h1, h2]
  · intro e h1 h2 h3
    simp [runPipeline, copyPhase, cssPhase, htmlPhase, h1, h2, h3]
  · intro e
    rfl
  · intro h1 h2 h3
    have hj := jsPhase_eq_ok ops.jsOp
    constructor
    · simp [runPipeline, copyPhase, cssPhase, htmlPhase, h1, h2, h3, hj]
    · simp [runPipeline, copyPhase, cssPhase, htmlPhase, h1, h2, h3, hj]

/-- Witness for C6: a concrete run whose script phase fails still exits
with code 0 and reaches the report phase. -/
theorem failure_fatality_split_witness :
    runPipeline ⟨Except.ok (), Except.ok (), Except.ok (), Except.error "rewrite failed"⟩ =
      (0, [PhaseTag.cleanup, PhaseTag.copy, PhaseTag.css,
           PhaseTag.html, PhaseTag.js, PhaseTag.report]) ∧
    PhaseTag.report ∈ (runPipeline ⟨Except.ok (), Except.ok (), Except.ok (),
      Except.error "rewrite failed"⟩).2 :=
  (failure_fatality_split ⟨Except.ok (), Except.ok (), Except.ok (),
    Except.error "rewrite failed"⟩).2.2.2.2 rfl rfl rfl

/-- C10: when `main.json` is absent, the markup-rewrite and script-rewrite
phases rewrite no file and return without error, and a run whose other
phases succeed still exits with code 0 after the report phase. -/
theorem absent_mapping_skip (htmlFiles jsFiles : List (List Char)) :
    obfuscateHTMLRun none htmlFiles = (htmlFiles, Except.ok ()) ∧
    obfuscateJavaScriptRun none jsFiles = (jsFiles, Except.ok ()) ∧
    runPipeline ⟨Except.ok (), Except.ok (), (obfuscateHTMLRun none htmlFiles).2,
                 (obfuscateJavaScriptRun none jsFiles).2⟩ =
      (0, [PhaseTag.cleanup, PhaseTag.copy, PhaseTag.css,
           PhaseTag.html, PhaseTag.js, PhaseTag.report]) :=
  ⟨rfl, rfl, rfl⟩

/-- C1 is refuted on the spec's own example: with stylesheet
`.btn{color:red}.btn-primary{color:blue}`, markup
`<div class="btn btn-primary"></div>` and no ignore rules, the two classes
do receive distinct tokens `a1`/`a2`, but the rewritten markup is not the
two tokens space-separated (`a2` never appears in it) and the stylesheet
rule of `btn-primary` has been corrupted by the substitution for `btn`
(no `.btn-primary` and no `.a2` selector survives). -/
theorem substring_safety_refuted :
    lookupKey c1Run.1.mapping "btn" = some "a1" ∧
    lookupKey c1Run.1.mapping "btn-primary" = some "a2" ∧
    String.mk c1HTML.1 ≠ "<div class=\"a1 a2\"></div>" ∧
    occursIn "a2".toList c1HTML.1 = false ∧
    occursIn (dot :: "btn-primary".toList) c1Stylesheet = true ∧
    occursIn (dot :: "btn-primary".toList) c1Run.2 = false ∧
    occursIn (dot :: "a2".toList) c1Run.2 = false := by
  decide

/-- C1 amended: on the spec's example the two classes map to the two
distinct tokens `a1` and `a2`, but substring safety fails — the
substitution performed for `btn` corrupts `btn-primary` in both artifacts,
leaving stylesheet `.a1{color:red}.a1-primary{color:blue}` and markup
`<div class="a1 a1 -primary"></div>`. -/
theorem substring_safety_amended :
    ("a1" : String) ≠ "a2" ∧
    c1Run.1.mapping = [("btn", "a1"), ("btn-primary", "a2")] ∧
    String.mk c1Run.2 = ".a1\x7bcolor:red\x7d.a1-primary\x7bcolor:blue\x7d" ∧
    String.mk c1HTML.1 = "<div class=\"a1 a1 -primary\"></div>" := by
  decide

/-- C2 is refuted: with mapping `btn → a1`, the markup token `btn-primary`
is not a mapping key, yet the rewriter changes the file — the `\b`-based
regexes match `btn` inside `btn-primary` (a hyphen is a word boundary), so
a token that merely contains a key does not pass through unchanged. -/
theorem markup_exact_token_refuted :
    lookupKey [("btn", "a1")] "btn-primary" = none ∧
    String.mk (obfuscateHTMLFile [("btn", "a1")] "<div class=\"btn-primary\"></div>".toList).1 =
      "<div class=\"a1 -primary\"></div>" ∧
    (obfuscateHTMLFile [("btn", "a1")] "<div class=\"btn-primary\"></div>".toList).1 ≠
      "<div class=\"btn-primary\"></div>".toList := by
  decide

/-- C3 is refuted in its preservation half: class `home` is matched by the
exact ignore rule `home` and indeed never enters the mapping, but rewriting
the non-ignored sibling class `ho` (whose selector is a substring of
`.home`) corrupts every `.home` occurrence in the stylesheet output. -/
theorem ignore_byte_preservation_refuted :
    shouldIgnore ["home"] "home" = true ∧
    lookupKey (processFileCSS ["home"] initState ".ho\x7bx\x7d.home\x7by\x7d".toList).1.mapping
      "home" = none ∧
    String.mk (processFileCSS ["home"] initState ".ho\x7bx\x7d.home\x7by\x7d".toList).2 =
      ".a1\x7bx\x7d.a1me\x7by\x7d" ∧
    occursIn ".home".toList ".ho\x7bx\x7d.home\x7by\x7d".toList = true ∧
    occursIn ".home".toList
      (processFileCSS ["home"] initState ".ho\x7bx\x7d.home\x7by\x7d".toList).2 = false := by
  decide

/-- C5 is refuted: the embedded configuration does select `classMethod:
'random'` with `length: 6`, but token generation ignores it — the first
token assigned is the deterministic `a1`, whose length is 2, not 6. -/
theorem random_token_refuted :
    cssConfig.classMethod = "random" ∧
    cssConfig.lengthOpt = 6 ∧
    (processFileCSS cssConfig.classIgnore initState ".foo\x7bcolor:red\x7d".toList).1.mapping =
      [("foo", "a1")] ∧
    ("a1" : String).length = 2 ∧
    ¬ (("a1" : String).length = 6) := by
  decide

/-- C8 is refuted in its recording half: `toString` is extracted as a
candidate (a dot followed by a maximal identifier run) and no ignore rule
matches it, yet it is never recorded, because `classMapping` is a plain
object literal and `classMapping['toString']` is truthy through the
inherited `Object.prototype.toString`. -/
theorem extraction_recording_refuted :
    cssClassMatches ".toString\x7bcolor:red\x7d".toList = ["toString"] ∧
    shouldIgnore [] "toString" = false ∧
    (processFileCSS [] initState ".toString\x7bcolor:red\x7d".toList).1.mapping = [] ∧
    "toString" ∉
      (processFileCSS [] initState ".toString\x7bcolor:red\x7d".toList).1.mapping.map
        Prod.fst := by
  decide

/-- A global replacement whose matcher never fires leaves the text
unchanged and performs zero replacements. -/
theorem scanRepl_of_no_match (t : List Char → Option (List Char × List Char)) :
    ∀ (n : Nat) (s : List Char), scanHasMatch t n s = false → scanRepl t n s = (s, 0) := by
  intro n
  induction n with
  | zero => intro s _; rfl
  | succ n ih =>
    intro s h
    cases s with
    | nil => rfl
    | cons c rest =>
      cases ht : t (c :: rest) with
      | some pr => simp [scanHasMatch, ht] at h
      | none =>
        simp only [scanHasMatch, ht, Option.isSome_none, Bool.false_or] at h
        simp [scanRepl, ht, ih rest h]

/-- Applying one mapping entry to a markup file with no matching
class-attribute pattern changes nothing. -/
theorem applyHTMLEntry_of_no_match (kv : String × String) (content : List Char) (n : Nat)
    (h : htmlEntryHasMatch kv content = false) :
    applyHTMLEntry (content, n) kv = (content, n) := by
  rw [htmlEntryHasMatch] at h
  simp only [Bool.or_eq_false_iff] at h
  obtain ⟨⟨h1, h2⟩, h3⟩ := h
  simp only [String.toList] at h1 h2 h3
  have e1 := scanRepl_of_no_match _ content.length content h1
  have e2 := scanRepl_of_no_match _ content.length content h2
  have e3 := scanRepl_of_no_match _ content.length content h3
  simp [applyHTMLEntry, e1, e2, e3]

/-- Folding the markup rewrite over entries none of which matches the text
is the identity. -/
theorem foldl_applyHTMLEntry_id :
    ∀ (m : List (String × String)) (content : List Char) (n : Nat),
      (∀ kv ∈ m, htmlEntryHasMatch kv content = false) →
      m.foldl applyHTMLEntry (content, n) = (content, n) := by
  intro m
  induction m with
  | nil => intro content n _; rfl
  | cons kv rest ih =>
    intro content n h
    rw [List.foldl_cons, applyHTMLEntry_of_no_match kv content n (h kv (by simp))]
    exact ih content n fun kv2 hk => h kv2 (by simp [hk])

/-- C2 amended: the markup rewriter substitutes at `\b` word boundaries
inside class attributes rather than on exact whitespace-delimited tokens
(see the counterexample); what does hold is the frame property that a
markup file in which no mapping key matches any of the three
class-attribute patterns is passed through byte-for-byte unchanged, with
zero replacements — in particular files whose tokens contain no mapping
key at a word boundary are untouched. -/
theorem markup_frame_amended (m : List (String × String)) (content : List Char)
    (h : ∀ kv ∈ m, htmlEntryHasMatch kv content = false) :
    obfuscateHTMLFile m content = (content, 0) :=
  foldl_applyHTMLEntry_id m content 0 h

/-- Witness for the amended C2 at a concrete file and mapping. -/
theorem markup_frame_amended_witness :
    (∀ kv ∈ [("btn", "a1")], htmlEntryHasMatch kv "<p>hello</p>".toList = false) ∧
    obfuscateHTMLFile [("btn", "a1")] "<p>hello</p>".toList = ("<p>hello</p>".toList, 0) :=
  ⟨by decide, markup_frame_amended _ _ (by decide)⟩

/-- Applying one mapping entry to a script file with no matching idiom
changes nothing. -/
theorem applyJSEntry_of_no_match (kv : String × String) (content : List Char) (n : Nat)
    (h : jsEntryHasMatch kv content = false) :
    applyJSEntry (content, n) kv = (content, n) := by
  rw [jsEntryHasMatch] at h
  simp only [Bool.or_eq_false_iff] at h
  obtain ⟨⟨h1, h2⟩, h3⟩ := h
  simp only [String.toList] at h1 h2 h3
  have e1 := scanRepl_of_no_match _ content.length content h1
  have e2 := scanRepl_of_no_match _ content.length content h2
  have e3 := scanRepl_of_no_match _ content.length content h3
  simp [applyJSEntry, e1, e2, e3]

/-- Folding the script rewrite over entries none of which matches the text
is the identity. -/
theorem foldl_applyJSEntry_id :
    ∀ (m : List (String × String)) (content : List Char) (n : Nat),
      (∀ kv ∈ m, jsEntryHasMatch kv content = false) →
      m.foldl applyJSEntry (content, n) = (content, n) := by
  intro m
  induction m with
  | nil => intro content n _; rfl
  | cons kv rest ih =>
    intro content n h
    rw [List.foldl_cons, applyJSEntry_of_no_match kv content n (h kv (by simp))]
    exact ih content n fun kv2 hk => h kv2 (by simp [hk])

/-- C9: a script file in which no recognized literal idiom (classList
call, selector lookup, or className assignment) containing a mapping key
matches undergoes zero replacements, and the write guard
(`if (changeCount > 0)`) leaves it byte-for-byte unchanged on disk — it is
not rewritten at all. -/
theorem script_frame_property (m : List (String × String)) (content : List Char)
    (h : ∀ kv ∈ m, jsEntryHasMatch kv content = false) :
    obfuscateJSFile m content = (content, 0) ∧ processJSFile m content = (content, false) := by
  have h1 := foldl_applyJSEntry_id m content 0 h
  refine ⟨h1, ?_⟩
  simp [processJSFile, obfuscateJSFile, h1]

/-- Witness for C9 at a concrete script file and mapping. -/
theorem script_frame_property_witness :
    (∀ kv ∈ [("btn", "a1")], jsEntryHasMatch kv "var x = 1;".toList = false) ∧
    obfuscateJSFile [("btn", "a1")] "var x = 1;".toList = ("var x = 1;".toList, 0) ∧
    processJSFile [("btn", "a1")] "var x = 1;".toList = ("var x = 1;".toList, false) := by
  refine ⟨by decide, ?_, ?_⟩
  · exact (script_frame_property _ _ (by decide)).1
  · exact (script_frame_property _ _ (by decide)).2

/-- Lookup misses exactly the keys that are absent. -/
theorem lookupKey_eq_none_iff (m : List (String × String)) (k : String) :
    lookupKey m k = none ↔ k ∉ m.map Prod.fst := by
  induction m with
  | nil => simp [lookupKey]
  | cons p rest ih =>
    obtain ⟨k2, v⟩ := p
    by_cases hk : k2 = k
    · simp [lookupKey, hk]
    · rw [List.map_cons, List.mem_cons]
      constructor
      · intro h hmem
        rcases hmem with h1 | h2
        · exact hk h1.symm
        · exact (ih.mp (by simpa [lookupKey, hk] using h)) h2
      · intro h
        rw [lookupKey, if_neg hk]
        exact ih.mpr fun h2 => h (Or.inr h2)

/-- Lookup hits are preserved by appending entries on the right. -/
theorem lookupKey_append_of_some (m l : List (String × String)) (k v : String)
    (h : lookupKey m k = some v) : lookupKey (m ++ l) k = some v := by
  induction m with
  | nil => simp [lookupKey] at h
  | cons p rest ih =>
    by_cases hk : p.1 = k
    · simpa [lookupKey, hk] using h
    · rw [List.cons_append, lookupKey, if_neg hk]
      exact ih (by simpa [lookupKey, hk] using h)

/-- One extraction step never changes an existing assignment. -/
theorem stepClass_lookup_mono (ign : List String) (acc : ObfState × List Char)
    (cn k v : String) (h : lookupKey acc.1.mapping k = some v) :
    lookupKey (stepClass ign acc cn).1.mapping k = some v := by
  by_cases h1 : mappingTruthy acc.1.mapping cn = true
  · simpa [stepClass, h1] using h
  · by_cases h2 : shouldIgnore ign cn = true
    · simpa [stepClass, h1, h2] using h
    · simp only [stepClass, h1, h2, Bool.false_eq_true, if_false]
      exact lookupKey_append_of_some _ _ _ _ h

/-- Folding extraction steps never changes an existing assignment. -/
theorem foldl_stepClass_lookup_mono (ign : List String) :
    ∀ (ms : List String) (acc : ObfState × List Char) (k v : String),
      lookupKey acc.1.mapping k = some v →
      lookupKey ((ms.foldl (stepClass ign) acc).1).mapping k = some v := by
  intro ms
  induction ms with
  | nil => intro acc k v h; exact h
  | cons cn rest ih =>
    intro acc k v h
    exact ih _ k v (stepClass_lookup_mono ign acc cn k v h)

/-- Processing a CSS file never changes an existing assignment. -/
theorem processFileCSS_lookup_mono (ign : List String) (st : ObfState) (content : List Char)
    (k v : String) (h : lookupKey st.mapping k = some v) :
    lookupKey (processFileCSS ign st content).1.mapping k = some v :=
  foldl_stepClass_lookup_mono ign _ (st, content) k v h

/-- The CSS phase never changes an existing assignment. -/
theorem obfuscateCSSRun_lookup_mono (ign : List String) :
    ∀ (fs : List (List Char)) (st : ObfState) (k v : String),
      lookupKey st.mapping k = some v →
      lookupKey (obfuscateCSSRun ign st fs).1.mapping k = some v := by
  intro fs
  induction fs with
  | nil => intro st k v h; exact h
  | cons f rest ih =>
    intro st k v h
    exact ih _ k v (processFileCSS_lookup_mono ign st f k v h)

/-- Running the CSS phase over concatenated file lists threads the state. -/
theorem obfuscateCSSRun_append (ign : List String) :
    ∀ (fs1 fs2 : List (List Char)) (st : ObfState),
      (obfuscateCSSRun ign st (fs1 ++ fs2)).1 =
        (obfuscateCSSRun ign (obfuscateCSSRun ign st fs1).1 fs2).1 := by
  intro fs1
  induction fs1 with
  | nil => intro fs2 st; rfl
  | cons f rest ih =>
    intro fs2 st
    simp only [List.cons_append, obfuscateCSSRun]
    exact ih fs2 _

/-- The initial extraction state satisfies the invariant. -/
theorem goodState_init : goodState initState := by
  refine ⟨?_, ?_, ?_⟩ <;> simp [initState, goodState]

/-- One extraction step preserves the state invariant. -/
theorem stepClass_good (ign : List String) (acc : ObfState × List Char) (cn : String)
    (h : goodState acc.1) : goodState (stepClass ign acc cn).1 := by
  by_cases h1 : mappingTruthy acc.1.mapping cn = true
  · simpa [stepClass, h1] using h
  · by_cases h2 : shouldIgnore ign cn = true
    · simpa [stepClass, h1, h2] using h
    · obtain ⟨hnd, hc, hv⟩ := h
      have hlk : lookupKey acc.1.mapping cn = none := by
        rw [mappingTruthy, Bool.or_eq_true] at h1
        rcases hlk2 : lookupKey acc.1.mapping cn with _ | w
        · rfl
        · exact absurd (Or.inl (by simp [hlk2])) h1
      have hkn : cn ∉ acc.1.mapping.map Prod.fst := (lookupKey_eq_none_iff _ _).mp hlk
      simp only [stepClass, h1, h2, Bool.false_eq_true, if_false]
      refine ⟨?_, ?_, ?_⟩
      · simpa [List.nodup_append, hnd] using hkn
      · simp [hc]
      · simp only [List.map_append, List.length_append, List.map_cons, List.map_nil,
          List.length_cons, List.length_nil, Nat.zero_add, hv, hc]
        rw [List.range_succ]
        simp

/-- Folding extraction steps preserves the state invariant. -/
theorem foldl_stepClass_good (ign : List String) :
    ∀ (ms : List String) (acc : ObfState × List Char),
      goodState acc.1 → goodState ((ms.foldl (stepClass ign) acc).1) := by
  intro ms
  induction ms with
  | nil => intro acc h; exact h
  | cons cn rest ih => intro acc h; exact ih _ (stepClass_good ign acc cn h)

/-- The CSS phase preserves the state invariant. -/
theorem obfuscateCSSRun_good (ign : List String) :
    ∀ (fs : List (List Char)) (st : ObfState),
      goodState st → goodState (obfuscateCSSRun ign st fs).1 := by
  intro fs
  induction fs with
  | nil => intro st h; exact h
  | cons f rest ih =>
    intro st h
    exact ih _ (foldl_stepClass_good ign _ (st, f) h)

/-- `digitChar36` and `c36val` are mutually inverse on base-36 digits. -/
theorem c36val_digitChar36 : ∀ d < 36, c36val (digitChar36 d) = d := by decide

/-- Appending a digit multiplies the value by the base and adds the digit. -/
theorem b36val_append_digit (l : List Char) (c : Char) :
    b36val (l ++ [c]) = b36val l * 36 + c36val c := by
  simp [b36val, List.foldl_append]

/-- The digit string produced by `toB36Go` denotes its input. -/
theorem toB36Go_val : ∀ (fuel n : Nat), n ≤ fuel → b36val (toB36Go fuel n) = n := by
  intro fuel
  induction fuel with
  | zero =>
    intro n h
    have : n = 0 := Nat.le_zero.mp h
    subst this
    rfl
  | succ fuel ih =>
    intro n h
    by_cases hn : n = 0
    · subst hn; rfl
    · have hdiv : n / 36 ≤ fuel := by
        have h1 : n / 36 < n := Nat.div_lt_self (Nat.pos_of_ne_zero hn) (by norm_num)
        omega
      rw [toB36Go, if_neg hn, b36val_append_digit, ih _ hdiv,
        c36val_digitChar36 _ (Nat.mod_lt _ (by norm_num))]
      omega

/-- The base-36 rendering denotes its input. -/
theorem b36val_toB36List (n : Nat) : b36val (toB36List n) = n := by
  by_cases hn : n = 0
  · subst hn; decide
  · simp [toB36List, hn, toB36Go_val n n le_rfl]

/-- Base-36 rendering is injective. -/
theorem toB36List_injective : Function.Injective toB36List := by
  intro a b h
  have ha := b36val_toB36List a
  rw [h, b36val_toB36List b] at ha
  exact ha.symm

/-- Token generation is injective: distinct counters give distinct tokens. -/
theorem obfName_injective : Function.Injective obfName := by
  intro a b h
  have hd : String.data (obfName a) = String.data (obfName b) := congrArg String.data h
  simp only [obfName, List.cons.injEq, true_and] at hd
  exact toB36List_injective hd

/-- In a mapping whose values are distinct, entries with distinct keys have
distinct values. -/
theorem snd_nodup_distinct {m : List (String × String)} (h : (m.map Prod.snd).Nodup)
    {x y vx vy : String} (hx : (x, vx) ∈ m) (hy : (y, vy) ∈ m) (hxy : x ≠ y) :
    vx ≠ vy := by
  induction m with
  | nil => cases hx
  | cons p rest ih =>
    rw [List.map_cons, List.nodup_cons] at h
    rcases List.mem_cons.mp hx with hx1 | hx2 <;>
      rcases List.mem_cons.mp hy with hy1 | hy2
    · exact absurd (by rw [← hx1] at hy1; exact congrArg Prod.fst hy1.symm) hxy
    · intro hvv
      apply h.1
      have hvx : vx = p.2 := congrArg Prod.snd hx1
      rw [← hvx, hvv]
      exact List.mem_map_of_mem Prod.snd hy2
    · intro hvv
      apply h.1
      have hvy : vy = p.2 := congrArg Prod.snd hy1
      rw [← hvy, ← hvv]
      exact List.mem_map_of_mem Prod.snd hx2
    · exact ih h.2 hx2 hy2

/-- Keys recorded by the extraction never match an ignore rule. -/
theorem run_keys_not_ignored (ign : List String) :
    ∀ (fs : List (List Char)) (st : ObfState),
      (∀ k ∈ st.mapping.map Prod.fst, shouldIgnore ign k = false) →
      ∀ k ∈ (obfuscateCSSRun ign st fs).1.mapping.map Prod.fst, shouldIgnore ign k = false := by
  have hstep : ∀ (ms : List String) (acc : ObfState × List Char),
      (∀ k ∈ acc.1.mapping.map Prod.fst, shouldIgnore ign k = false) →
      ∀ k ∈ ((ms.foldl (stepClass ign) acc).1).mapping.map Prod.fst,
        shouldIgnore ign k = false := by
    intro ms
    induction ms with
    | nil => intro acc h; exact h
    | cons cn rest ih =>
      intro acc h
      apply ih
      by_cases h1 : mappingTruthy acc.1.mapping cn = true
      · simpa [stepClass, h1] using h
      · by_cases h2 : shouldIgnore ign cn = true
        · simpa [stepClass, h1, h2] using h
        · simp only [stepClass, h1, h2, Bool.false_eq_true, if_false]
          intro k hk
          rw [List.map_append] at hk
          rcases List.mem_append.mp hk with hk1 | hk2
          · exact h k hk1
          · simp only [List.map_cons, List.map_nil, List.mem_singleton] at hk2
            subst hk2
            exact Bool.not_eq_true _ ▸ (by simpa using h2)
  intro fs
  induction fs with
  | nil => intro st h; exact h
  | cons f rest ih =>
    intro st h
    exact ih _ (hstep _ (st, f) h)

/-- C3 amended: a class name matched by an ignore rule never appears as a
key of the mapping (its byte-for-byte preservation in outputs, however,
fails — see the counterexample, where rewriting a sibling class corrupts
the ignored class's occurrences). -/
theorem ignored_never_mapped (ign : List String) (fs : List (List Char)) (cn : String)
    (h : shouldIgnore ign cn = true) :
    cn ∉ (obfuscateCSSRun ign initState fs).1.mapping.map Prod.fst := by
  intro hmem
  have hf := run_keys_not_ignored ign fs initState (by simp [initState]) cn hmem
  rw [h] at hf
  cases hf

/-- Witness for the amended C3: `icon-home` matches `icon-*`, is never a
mapping key, and the sibling class `foo` in the same file is rewritten. -/
theorem ignored_never_mapped_witness :
    shouldIgnore ["icon-*"] "icon-home" = true ∧
    "icon-home" ∉ (obfuscateCSSRun ["icon-*"] initState
      [".icon-home\x7bx\x7d.foo\x7by\x7d".toList]).1.mapping.map Prod.fst ∧
    (obfuscateCSSRun ["icon-*"] initState
      [".icon-home\x7bx\x7d.foo\x7by\x7d".toList]).1.mapping = [("foo", "a1")] :=
  ⟨by decide, ignored_never_mapped _ _ _ (by decide), by decide⟩

/-- C4: at the end of the extraction phase the mapping has pairwise
distinct keys and pairwise distinct tokens, and an assignment, once made,
is unchanged by any further processing in the run. -/
theorem mapping_noncollision_immutable (ign : List String) (fs1 fs2 : List (List Char)) :
    ((obfuscateCSSRun ign initState fs1).1.mapping.map Prod.fst).Nodup ∧
    (∀ x y vx vy, (x, vx) ∈ (obfuscateCSSRun ign initState fs1).1.mapping →
      (y, vy) ∈ (obfuscateCSSRun ign initState fs1).1.mapping → x ≠ y → vx ≠ vy) ∧
    (∀ k v, lookupKey (obfuscateCSSRun ign initState fs1).1.mapping k = some v →
      lookupKey (obfuscateCSSRun ign initState (fs1 ++ fs2)).1.mapping k = some v) := by
  obtain ⟨hnd, _, hv⟩ := obfuscateCSSRun_good ign fs1 initState goodState_init
  refine ⟨hnd, ?_, ?_⟩
  · intro x y vx vy hx hy hxy
    refine snd_nodup_distinct ?_ hx hy hxy
    rw [hv]
    exact (List.nodup_range _).map fun a b hab =>
      Nat.succ_injective (obfName_injective hab)
  · intro k v h
    rw [obfuscateCSSRun_append]
    exact obfuscateCSSRun_lookup_mono ign fs2 _ k v h

/-- Witness for C4 at concrete files: distinct classes receive distinct
tokens and the first file's assignment survives processing a second file
that mentions the same class. -/
theorem mapping_noncollision_immutable_witness :
    (("x", "a1") ∈ (obfuscateCSSRun [] initState [".x\x7bi\x7d.y\x7bj\x7d".toList]).1.mapping) ∧
    (("y", "a2") ∈ (obfuscateCSSRun [] initState [".x\x7bi\x7d.y\x7bj\x7d".toList]).1.mapping) ∧
    ("a1" : String) ≠ "a2" ∧
    lookupKey (obfuscateCSSRun [] initState
      ([".x\x7bi\x7d".toList] ++ [".y\x7bj\x7d.x\x7bk\x7d".toList])).1.mapping "x" = some "a1" := by
  refine ⟨by decide, by decide, ?_, ?_⟩
  · exact (mapping_noncollision_immutable [] [".x\x7bi\x7d.y\x7bj\x7d".toList] []).2.1
      "x" "y" "a1" "a2" (by decide) (by decide) (by decide)
  · exact (mapping_noncollision_immutable [] [".x\x7bi\x7d".toList]
      [".y\x7bj\x7d.x\x7bk\x7d".toList]).2.2 "x" "a1" (by decide)

/-- C5 amended: the embedded configuration's `classMethod: 'random'` and
`length: 6` are never consulted; the tokens assigned are exactly
`obfName 1, obfName 2, ...` — `'a'` followed by the base-36 rendering of a
counter that starts at 1 and increases by one per recorded class — so
generation is deterministic and collision-free with no redraws. -/
theorem token_generation_sequential (ign : List String) (fs : List (List Char)) :
    (obfuscateCSSRun ign initState fs).1.mapping.map Prod.snd =
      (List.range (obfuscateCSSRun ign initState fs).1.mapping.length).map
        (fun i => obfName (i + 1)) :=
  (obfuscateCSSRun_good ign fs initState goodState_init).2.2

/-- Skipping depends on the seen list only through membership. -/
theorem skipName_congr (ign : List String) {seen1 seen2 : List String} (x : String)
    (h : ∀ a, a ∈ seen1 ↔ a ∈ seen2) : skipName ign seen1 x = skipName ign seen2 x := by
  rw [skipName, skipName, decide_eq_decide.mpr (h x)]

/-- Unfolding the seen list by one element. -/
theorem skipName_cons (ign : List String) (seen : List String) (s x : String) :
    skipName ign (s :: seen) x = (decide (x = s) || skipName ign seen x) := by
  by_cases hxs : x = s
  · subst hxs
    simp [skipName]
  · simp [skipName, hxs, List.mem_cons]

/-- Growing the seen list never unskips a name. -/
theorem skipName_mono (ign : List String) {seen1 seen2 : List String} (x : String)
    (hsub : ∀ a, a ∈ seen1 → a ∈ seen2) (h : skipName ign seen1 x = true) :
    skipName ign seen2 x = true := by
  rw [skipName, Bool.or_eq_true, Bool.or_eq_true] at h
  rw [skipName, Bool.or_eq_true, Bool.or_eq_true]
  rcases h with (h | h) | h
  · exact Or.inl (Or.inl (decide_eq_true (hsub x (of_decide_eq_true h))))
  · exact Or.inl (Or.inr h)
  · exact Or.inr h

/-- Discovery depends on the seen list only through the skip predicate. -/
theorem discoverGo_congr (ign : List String) :
    ∀ (l : List String) {seen1 seen2 : List String},
      (∀ a, skipName ign seen1 a = skipName ign seen2 a) →
      discoverGo ign seen1 l = discoverGo ign seen2 l := by
  intro l
  induction l with
  | nil => intro seen1 seen2 _; rfl
  | cons x xs ih =>
    intro seen1 seen2 h
    rw [discoverGo, discoverGo, h x]
    by_cases hs : skipName ign seen2 x = true
    · rw [if_pos hs, if_pos hs]
      exact ih h
    · rw [if_neg hs, if_neg hs]
      refine congrArg (x :: ·) (ih fun a => ?_)
      rw [skipName_cons, skipName_cons, h a]

/-- Discovery depends on the seen list only through membership. -/
theorem discoverGo_congr_mem (ign : List String) (l : List String) {seen1 seen2 : List String}
    (h : ∀ a, a ∈ seen1 ↔ a ∈ seen2) :
    discoverGo ign seen1 l = discoverGo ign seen2 l :=
  discoverGo_congr ign l fun a => skipName_congr ign a h

/-- Membership in the discovered sequence: exactly the candidates that are
present and not skipped with respect to the initial seen list. -/
theorem mem_discoverGo (ign : List String) :
    ∀ (l seen : List String) (a : String),
      a ∈ discoverGo ign seen l ↔ (a ∈ l ∧ skipName ign seen a = false) := by
  intro l
  induction l with
  | nil => intro seen a; simp [discoverGo]
  | cons x xs ih =>
    intro seen a
    by_cases hs : skipName ign seen x = true
    · rw [discoverGo, if_pos hs, ih]
      constructor
      · rintro ⟨h1, h2⟩
        exact ⟨List.mem_cons_of_mem _ h1, h2⟩
      · rintro ⟨h1, h2⟩
        rcases List.mem_cons.mp h1 with rfl | h3
        · rw [hs] at h2; cases h2
        · exact ⟨h3, h2⟩
    · rw [discoverGo, if_neg hs]
      rw [Bool.not_eq_true] at hs
      constructor
      · intro hmem
        rcases List.mem_cons.mp hmem with rfl | h3
        · exact ⟨List.mem_cons_self _ _, hs⟩
        · obtain ⟨h4, h5⟩ := (ih (x :: seen) a).mp h3
          rw [skipName_cons] at h5
          exact ⟨List.mem_cons_of_mem _ h4, (Bool.or_eq_false_iff.mp h5).2⟩
      · rintro ⟨h1, h2⟩
        rcases List.mem_cons.mp h1 with rfl | h3
        · exact List.mem_cons_self _ _
        · by_cases hax : a = x
          · subst hax; exact List.mem_cons_self _ _
          · refine List.mem_cons_of_mem _ ((ih (x :: seen) a).mpr ⟨h3, ?_⟩)
            rw [skipName_cons]
            simp [hax, h2]

/-- The discovered sequence has no duplicates. -/
theorem discoverGo_nodup (ign : List String) :
    ∀ (l seen : List String), (discoverGo ign seen l).Nodup := by
  intro l
  induction l with
  | nil => intro seen; exact List.nodup_nil
  | cons x xs ih =>
    intro seen
    by_cases hs : skipName ign seen x = true
    · rw [discoverGo, if_pos hs]; exact ih seen
    · rw [discoverGo, if_neg hs]
      refine List.nodup_cons.mpr ⟨?_, ih (x :: seen)⟩
      intro hmem
      have := ((mem_discoverGo ign xs (x :: seen) x).mp hmem).2
      rw [skipName_cons] at this
      simp at this

/-- Marking a name as seen filters it out of the discovered sequence. -/
theorem discoverGo_cons_seen (ign : List String) :
    ∀ (xs seen : List String) (s : String),
      discoverGo ign (s :: seen) xs =
        (discoverGo ign seen xs).filter (fun y => !(decide (y = s))) := by
  intro xs
  induction xs with
  | nil => intro seen s; rfl
  | cons x xs ih =>
    intro seen s
    by_cases hxs : x = s
    · subst hxs
      by_cases hsk : skipName ign seen x = true
      · rw [discoverGo, if_pos (by rw [skipName_cons]; simp [hsk]),
          discoverGo, if_pos hsk]
        exact ih seen x
      · rw [discoverGo, if_pos (by rw [skipName_cons]; simp),
          discoverGo, if_neg hsk]
        rw [List.filter_cons]
        simp only [decide_True, Bool.not_true, Bool.false_eq_true, if_false]
        rw [ih seen x, List.filter_filter]
        simp
    · by_cases hsk : skipName ign seen x = true
      · rw [discoverGo, if_pos (by rw [skipName_cons]; simp [hsk]),
          discoverGo, if_pos hsk]
        exact ih seen s
      · rw [discoverGo, if_neg (by rw [skipName_cons]; simp [hxs, hsk]),
          discoverGo, if_neg hsk]
        rw [List.filter_cons]
        simp only [hxs, decide_False, Bool.not_false, if_true]
        refine congrArg (x :: ·) ?_
        rw [← ih (x :: seen) s]
        exact discoverGo_congr_mem ign xs fun a => by
          simp [List.mem_cons, or_comm, or_left_comm]

/-- The first-occurrence law of the recorded sequence: a candidate is
recorded at its first non-skipped occurrence and all later duplicates are
dropped. -/
theorem discoverGo_first_occurrence (ign : List String) (x : String) (xs : List String) :
    discoverGo ign [] (x :: xs) =
      if skipName ign [] x then discoverGo ign [] xs
      else x :: (discoverGo ign [] xs).filter (fun y => !(decide (y = x))) := by
  by_cases h : skipName ign [] x = true
  · rw [discoverGo, if_pos h, if_pos h]
  · rw [discoverGo, if_neg h, if_neg h, discoverGo_cons_seen]

/-- After discovering over `seen`, the accumulated seen list is
interchangeable (for skipping purposes) with `l ++ seen`. -/
theorem skipName_after_discover (ign : List String) (seen l : List String) (a : String) :
    skipName ign (seen ++ discoverGo ign seen l) a = skipName ign (l ++ seen) a := by
  by_cases hp : (decide (a ∈ protoProps) || shouldIgnore ign a) = true
  · have hall : ∀ s, skipName ign s a = true := fun s => by
      rw [skipName, Bool.or_assoc, Bool.or_eq_true]
      exact Or.inr hp
    rw [hall, hall]
  · have htail : (decide (a ∈ protoProps) || shouldIgnore ign a) = false := by
      simpa using hp
    rw [skipName, skipName, Bool.or_assoc, Bool.or_assoc, htail,
      Bool.or_false, Bool.or_false, decide_eq_decide]
    simp only [List.mem_append]
    constructor
    · rintro (h1 | h2)
      · exact Or.inr h1
      · exact Or.inl ((mem_discoverGo ign l seen a).mp h2).1
    · rintro (h1 | h2)
      · by_cases hs : a ∈ seen
        · exact Or.inl hs
        · refine Or.inr ((mem_discoverGo ign l seen a).mpr ⟨h1, ?_⟩)
          rw [skipName, Bool.or_assoc, htail, Bool.or_false]
          simpa using hs
      · exact Or.inl h2

/-- Discovery over a concatenation splits at the boundary. -/
theorem discoverGo_append (ign : List String) :
    ∀ (l1 l2 seen : List String),
      discoverGo ign seen (l1 ++ l2) =
        discoverGo ign seen l1 ++ discoverGo ign (l1 ++ seen) l2 := by
  intro l1
  induction l1 with
  | nil => intro l2 seen; simp [discoverGo]
  | cons x xs ih =>
    intro l2 seen
    by_cases hsk : skipName ign seen x = true
    · rw [List.cons_append, discoverGo, if_pos hsk, discoverGo, if_pos hsk, ih]
      refine congrArg (discoverGo ign seen xs ++ ·) ?_
      refine discoverGo_congr ign l2 fun a => ?_
      have hx2 : skipName ign (xs ++ seen) x = true :=
        skipName_mono ign x (fun b hb => List.mem_append.mpr (Or.inr hb)) hsk
      rw [List.cons_append, skipName_cons]
      by_cases hax : a = x
      · subst hax
        simp [hx2]
      · simp [hax]
    · rw [List.cons_append, discoverGo, if_neg hsk, discoverGo, if_neg hsk,
        ih l2 (x :: seen)]
      simp only [List.cons_append]
      refine congrArg (fun t => x :: (discoverGo ign (x :: seen) xs ++ t)) ?_
      exact discoverGo_congr_mem ign l2 fun a => by
        simp [List.mem_append, List.mem_cons, or_comm, or_left_comm]

/-- Lookup succeeds exactly on present keys. -/
theorem lookupKey_isSome_eq (m : List (String × String)) (k : String) :
    (lookupKey m k).isSome = decide (k ∈ m.map Prod.fst) := by
  rcases h : lookupKey m k with _ | v
  · simp [(lookupKey_eq_none_iff m k).mp h]
  · have hmem : k ∈ m.map Prod.fst := by
      by_contra hk
      rw [(lookupKey_eq_none_iff m k).mpr hk] at h
      cases h
    simp [hmem]

/-- The extraction step's skip condition is `skipName` over the current keys. -/
theorem stepClass_skip_eq (ign : List String) (m : List (String × String)) (cn : String) :
    (mappingTruthy m cn || shouldIgnore ign cn) = skipName ign (m.map Prod.fst) cn := by
  rw [mappingTruthy, lookupKey_isSome_eq, skipName]

/-- A skipped candidate leaves the extraction step's accumulator unchanged. -/
theorem stepClass_of_skip (ign : List String) (acc : ObfState × List Char) (cn : String)
    (h : skipName ign (acc.1.mapping.map Prod.fst) cn = true) :
    stepClass ign acc cn = acc := by
  rw [← stepClass_skip_eq, Bool.or_eq_true] at h
  rcases h with h | h
  · simp [stepClass, h]
  · by_cases h1 : mappingTruthy acc.1.mapping cn = true
    · simp [stepClass, h1]
    · simp [stepClass, h1, h]

/-- Keys recorded by folding the extraction steps: the previous keys
followed by the discovered sequence of the candidate stream. -/
theorem foldl_stepClass_keys (ign : List String) :
    ∀ (ms : List String) (st : ObfState) (content : List Char),
      ((ms.foldl (stepClass ign) (st, content)).1).mapping.map Prod.fst =
        st.mapping.map Prod.fst ++
          discoverGo ign (st.mapping.map Prod.fst) ms := by
  intro ms
  induction ms with
  | nil => intro st content; simp [discoverGo]
  | cons cn rest ih =>
    intro st content
    rw [List.foldl_cons, discoverGo]
    by_cases hskip : skipName ign (st.mapping.map Prod.fst) cn = true
    · rw [if_pos hskip, stepClass_of_skip ign (st, content) cn hskip]
      exact ih st content
    · rw [if_neg hskip]
      have h12 : (mappingTruthy st.mapping cn || shouldIgnore ign cn) = false := by
        rw [stepClass_skip_eq]
        simpa using hskip
      obtain ⟨h1, h2⟩ := Bool.or_eq_false_iff.mp h12
      rw [stepClass, if_neg (by simp [h1]), if_neg (by simp [h2])]
      rw [ih]
      simp only [List.map_append, List.map_cons, List.map_nil]
      rw [List.append_assoc]
      refine congrArg (List.map Prod.fst st.mapping ++ ·) ?_
      rw [List.singleton_append]
      refine congrArg (cn :: ·) ?_
      exact discoverGo_congr_mem ign rest fun a => by
        simp [List.mem_append, List.mem_cons, or_comm]

/-- Keys of the whole CSS phase: the previous keys followed by the
discovered sequence of all candidates in file-processing order. -/
theorem obfuscateCSSRun_keys (ign : List String) :
    ∀ (fs : List (List Char)) (st : ObfState),
      (obfuscateCSSRun ign st fs).1.mapping.map Prod.fst =
        st.mapping.map Prod.fst ++
          discoverGo ign (st.mapping.map Prod.fst) (cssCandidates fs) := by
  intro fs
  induction fs with
  | nil => intro st; simp [obfuscateCSSRun, discoverGo, cssCandidates]
  | cons f rest ih =>
    intro st
    have hcand : cssCandidates (f :: rest) = cssClassMatches f ++ cssCandidates rest := by
      simp [cssCandidates]
    rw [obfuscateCSSRun, ih, hcand, discoverGo_append]
    have hkeys : (processFileCSS ign st f).1.mapping.map Prod.fst =
        st.mapping.map Prod.fst ++
          discoverGo ign (st.mapping.map Prod.fst) (cssClassMatches f) :=
      foldl_stepClass_keys ign (cssClassMatches f) st f
    rw [hkeys, List.append_assoc]
    refine congrArg (List.map Prod.fst st.mapping ++ ·) ?_
    refine congrArg (discoverGo ign (st.mapping.map Prod.fst) (cssClassMatches f) ++ ·) ?_
    exact discoverGo_congr ign (cssCandidates rest) fun a =>
      skipName_after_discover ign (st.mapping.map Prod.fst) (cssClassMatches f) a

/-- C7: saving at the end of the extraction phase creates the data
directory when needed and writes an artifact holding exactly the mapping
(whose key sequence is the discovery order of recorded candidates, without
duplicates), the generation timestamp, and a total equal to the number of
mapping keys. -/
theorem mapping_artifact_shape (d : DataDir) (ign : List String) (fs : List (List Char))
    (ts : String) :
    (saveMapping d (obfuscateCSSRun ign initState fs).1.mapping ts).dirExists = true ∧
    (saveMapping d (obfuscateCSSRun ign initState fs).1.mapping ts).mainJson =
      some (mkMappingData (obfuscateCSSRun ign initState fs).1.mapping ts) ∧
    (mkMappingData (obfuscateCSSRun ign initState fs).1.mapping ts).classes =
      (obfuscateCSSRun ign initState fs).1.mapping ∧
    (mkMappingData (obfuscateCSSRun ign initState fs).1.mapping ts).timestamp = ts ∧
    (mkMappingData (obfuscateCSSRun ign initState fs).1.mapping ts).totalClasses =
      ((obfuscateCSSRun ign initState fs).1.mapping.map Prod.fst).length ∧
    ((obfuscateCSSRun ign initState fs).1.mapping.map Prod.fst).Nodup ∧
    (obfuscateCSSRun ign initState fs).1.mapping.map Prod.fst =
      discoverGo ign [] (cssCandidates fs) := by
  refine ⟨?_, ?_, rfl, rfl, rfl, ?_, ?_⟩
  · cases hd : d.dirExists <;> simp [saveMapping, hd]
  · cases hd : d.dirExists <;> simp [saveMapping, hd]
  · exact (obfuscateCSSRun_good ign fs initState goodState_init).1
  · have h := obfuscateCSSRun_keys ign fs initState
    simpa [initState] using h

/-- A list of identifier characters is consumed whole by the run scanner. -/
theorem takeWhile_ident_all :
    ∀ l : List Char, l.all isIdentChar = true →
      l.takeWhile isIdentChar = l ∧ l.dropWhile isIdentChar = [] := by
  intro l
  induction l with
  | nil => intro _; exact ⟨rfl, rfl⟩
  | cons c cs ih =>
    intro h
    rw [List.all_cons, Bool.and_eq_true] at h
    exact ⟨by rw [List.takeWhile_cons, if_pos h.1, (ih h.2).1],
           by rw [List.dropWhile_cons, if_pos h.1, (ih h.2).2]⟩

/-- A maximal identifier run never crosses a non-identifier head. -/
theorem takeWhile_ident_append :
    ∀ l1 l2 : List Char, notIdentHead l2 = true →
      (l1 ++ l2).takeWhile isIdentChar = l1.takeWhile isIdentChar ∧
      (l1 ++ l2).dropWhile isIdentChar = l1.dropWhile isIdentChar ++ l2 := by
  intro l1
  induction l1 with
  | nil =>
    intro l2 h
    cases l2 with
    | nil => exact ⟨rfl, rfl⟩
    | cons c cs =>
      rw [notIdentHead] at h
      have hc : isIdentChar c = false := by simpa using h
      constructor
      · rw [List.nil_append, List.takeWhile_cons, if_neg (by simp [hc]), List.takeWhile_nil]
      · rw [List.nil_append, List.dropWhile_cons, if_neg (by simp [hc]), List.dropWhile_nil,
          List.nil_append]
  | cons a l1 ih =>
    intro l2 h
    obtain ⟨ht, hd⟩ := ih l2 h
    by_cases hp : isIdentChar a = true
    · constructor
      · rw [List.cons_append, List.takeWhile_cons, if_pos hp, ht, List.takeWhile_cons, if_pos hp]
      · rw [List.cons_append, List.dropWhile_cons, if_pos hp, hd, List.dropWhile_cons, if_pos hp]
    · constructor
      · rw [List.cons_append, List.takeWhile_cons, if_neg hp, List.takeWhile_cons, if_neg hp]
      · rw [List.cons_append, List.dropWhile_cons, if_neg hp, List.dropWhile_cons, if_neg hp,
          List.cons_append]

/-- A valid name followed by a non-identifier head is exactly the maximal run. -/
theorem takeWhile_ident_exact (name post : List Char) (hall : name.all isIdentChar = true)
    (hpost : notIdentHead post = true) :
    (name ++ post).takeWhile isIdentChar = name ∧
    (name ++ post).dropWhile isIdentChar = post := by
  obtain ⟨h1, h2⟩ := takeWhile_ident_append name post hpost
  obtain ⟨h3, h4⟩ := takeWhile_ident_all name hall
  exact ⟨by rw [h1, h3], by rw [h2, h4, List.nil_append]⟩

/-- Every character of a maximal identifier run is an identifier character. -/
theorem mem_takeWhile_ident :
    ∀ (l : List Char) (c : Char), c ∈ l.takeWhile isIdentChar → isIdentChar c = true := by
  intro l
  induction l with
  | nil => intro c h; rw [List.takeWhile_nil] at h; cases h
  | cons a l ih =>
    intro c h
    by_cases hp : isIdentChar a = true
    · rw [List.takeWhile_cons, if_pos hp] at h
      rcases List.mem_cons.mp h with rfl | h2
      · exact hp
      · exact ih c h2
    · rw [List.takeWhile_cons, if_neg hp] at h
      cases h

/-- What remains after a maximal identifier run starts with a
non-identifier character, if anything. -/
theorem notIdentHead_dropWhile :
    ∀ l : List Char, notIdentHead (l.dropWhile isIdentChar) = true := by
  intro l
  induction l with
  | nil => rfl
  | cons c cs ih =>
    by_cases hp : isIdentChar c = true
    · rw [List.dropWhile_cons, if_pos hp]
      exact ih
    · rw [List.dropWhile_cons, if_neg hp, notIdentHead]
      simpa using hp

/-- One unfolding step of the extraction scanner. -/
theorem cssScan_cons_eq (fuel : Nat) (c : Char) (rest : List Char) :
    cssScan (fuel + 1) (c :: rest) =
      if c = dot then
        (match rest with
         | [] => []
         | d :: rest2 =>
           if d.isAlpha then
             String.mk (d :: rest2.takeWhile isIdentChar) ::
               cssScan fuel (rest2.dropWhile isIdentChar)
           else cssScan fuel rest)
      else cssScan fuel rest := rfl

/-- The scanner skips a non-marker character. -/
theorem cssScan_cons_ne_dot (fuel : Nat) (c : Char) (rest : List Char) (h : ¬ c = dot) :
    cssScan (fuel + 1) (c :: rest) = cssScan fuel rest := by
  rw [cssScan_cons_eq, if_neg h]

/-- The scanner stops at a final marker. -/
theorem cssScan_dot_nil (fuel : Nat) : cssScan (fuel + 1) [dot] = [] := rfl

/-- The scanner at a marker followed by a letter emits the maximal run and
continues after it; at a marker followed by anything else it skips the
marker. -/
theorem cssScan_dot_cons (fuel : Nat) (d : Char) (rest2 : List Char) :
    cssScan (fuel + 1) (dot :: d :: rest2) =
      if d.isAlpha then
        String.mk (d :: rest2.takeWhile isIdentChar) ::
          cssScan fuel (rest2.dropWhile isIdentChar)
      else cssScan fuel (d :: rest2) := rfl

/-- Dropping a prefix never lengthens a list. -/
theorem dropWhile_ident_length_le :
    ∀ l : List Char, (l.dropWhile isIdentChar).length ≤ l.length := by
  intro l
  induction l with
  | nil => exact le_rfl
  | cons c cs ih =>
    by_cases hp : isIdentChar c = true
    · rw [List.dropWhile_cons, if_pos hp]
      exact le_trans ih (by simp)
    · rw [List.dropWhile_cons, if_neg hp]

/-- Completeness of extraction: every occurrence of a valid name, as a
marker followed by the name with no identifier character following, is
extracted (whole) by the scanner: `btn-primary` is never split into `btn`. -/
theorem cssScan_complete :
    ∀ (fuel : Nat) (pre name post : List Char),
      (pre ++ dot :: (name ++ post)).length ≤ fuel →
      validName name = true →
      notIdentHead post = true →
      String.mk name ∈ cssScan fuel (pre ++ dot :: (name ++ post)) := by
  intro fuel
  induction fuel with
  | zero =>
    intro pre name post h _ _
    exfalso
    simp only [List.length_append, List.length_cons, Nat.le_zero] at h
    omega
  | succ fuel ih =>
    intro pre name post h hv hp
    cases hname : name with
    | nil => rw [hname] at hv; cases hv
    | cons d ns =>
    subst hname
    rw [validName, Bool.and_eq_true, List.all_cons, Bool.and_eq_true] at hv
    obtain ⟨hd, _, hall⟩ := hv
    have hvn : validName (d :: ns) = true := by
      rw [validName, Bool.and_eq_true, List.all_cons, Bool.and_eq_true]
      exact ⟨hd, by simp [isIdentChar, hd], hall⟩
    cases pre with
    | nil =>
      simp only [List.nil_append, List.cons_append]
      rw [cssScan_dot_cons, if_pos hd, (takeWhile_ident_exact ns post hall hp).1]
      exact List.mem_cons_self _ _
    | cons c pre2 =>
      have hlen2 : (pre2 ++ dot :: (d :: ns ++ post)).length ≤ fuel := by
        simp only [List.length_append, List.length_cons] at h ⊢
        omega
      by_cases hc : c = dot
      · subst hc
        cases pre2 with
        | nil =>
          simp only [List.nil_append, List.cons_append]
          rw [cssScan_dot_cons, if_neg (by simp [dot])]
          have := ih [] (d :: ns) post (by simpa using hlen2) hvn hp
          simpa [List.cons_append] using this
        | cons d2 pre3 =>
          by_cases hd2 : d2.isAlpha = true
          · simp only [List.cons_append]
            rw [cssScan_dot_cons, if_pos hd2]
            have hnih : notIdentHead (dot :: d :: (ns ++ post)) = true := by
              simp [notIdentHead, isIdentChar, dot]
            obtain ⟨_, hdrop⟩ := takeWhile_ident_append pre3 (dot :: d :: (ns ++ post)) hnih
            rw [hdrop]
            refine List.mem_cons_of_mem _ ?_
            have hlen3 : ((pre3.dropWhile isIdentChar) ++ dot :: (d :: ns ++ post)).length ≤
                fuel := by
              have hdl := dropWhile_ident_length_le pre3
              simp only [List.length_append, List.length_cons] at hlen2 ⊢
              omega
            have := ih (pre3.dropWhile isIdentChar) (d :: ns) post hlen3 hvn hp
            simpa [List.cons_append] using this
          · simp only [List.cons_append]
            rw [cssScan_dot_cons, if_neg hd2]
            have := ih (d2 :: pre3) (d :: ns) post hlen2 hvn hp
            simpa [List.cons_append] using this
      · simp only [List.cons_append]
        rw [cssScan_cons_ne_dot fuel c _ hc]
        have := ih pre2 (d :: ns) post hlen2 hvn hp
        simpa [List.cons_append] using this

/-- Soundness of extraction: every extracted name is a valid name that
occurs in the text as a marker followed by a maximal identifier run (the
character after it, if any, is not an identifier character). -/
theorem cssScan_sound :
    ∀ (fuel : Nat) (s : List Char) (nm : String), nm ∈ cssScan fuel s →
      ∃ d ns u v, nm = String.mk (d :: ns) ∧ validName (d :: ns) = true ∧
        s = u ++ dot :: (d :: ns ++ v) ∧ notIdentHead v = true := by
  intro fuel
  induction fuel with
  | zero => intro s nm h; cases h
  | succ fuel ih =>
    intro s nm h
    cases s with
    | nil => cases h
    | cons c rest =>
      by_cases hc : c = dot
      · subst hc
        cases rest with
        | nil => rw [cssScan_dot_nil] at h; cases h
        | cons d rest2 =>
          by_cases hd : d.isAlpha = true
          · rw [cssScan_dot_cons, if_pos hd] at h
            rcases List.mem_cons.mp h with rfl | h2
            · refine ⟨d, rest2.takeWhile isIdentChar, [], rest2.dropWhile isIdentChar,
                rfl, ?_, ?_, notIdentHead_dropWhile rest2⟩
              · rw [validName, Bool.and_eq_true, List.all_cons, Bool.and_eq_true]
                refine ⟨hd, by simp [isIdentChar, hd], ?_⟩
                rw [List.all_eq_true]
                exact fun c hcm => mem_takeWhile_ident rest2 c hcm
              · rw [List.nil_append, List.cons_append, List.takeWhile_append_dropWhile]
            · obtain ⟨d2, ns2, u2, v2, hnm, hv2, hdec, hh2⟩ := ih _ nm h2
              refine ⟨d2, ns2, dot :: d :: (rest2.takeWhile isIdentChar ++ u2), v2,
                hnm, hv2, ?_, hh2⟩
              simp only [List.cons_append] at hdec
              simp only [List.cons_append, List.append_assoc]
              rw [← hdec, List.takeWhile_append_dropWhile]
          · rw [cssScan_dot_cons, if_neg hd] at h
            obtain ⟨d2, ns2, u2, v2, hnm, hv2, hdec, hh2⟩ := ih _ nm h
            exact ⟨d2, ns2, dot :: u2, v2, hnm, hv2, by rw [List.cons_append, hdec], hh2⟩
      · rw [cssScan_cons_ne_dot fuel c rest hc] at h
        obtain ⟨d2, ns2, u2, v2, hnm, hv2, hdec, hh2⟩ := ih _ nm h
        exact ⟨d2, ns2, c :: u2, v2, hnm, hv2, by rw [List.cons_append, hdec], hh2⟩

/-- C8 amended: extraction is whole-token — every occurrence of a valid
name as a class marker followed by a maximal identifier run is extracted
whole (never split into a prefix), every extracted name is such an
occurrence — and the recorded mapping keys are exactly the candidates in
file-processing then first-occurrence order, each recorded once at its
first occurrence with later duplicates dropped, except candidates matched
by an ignore rule or shadowed by an inherited `Object.prototype` property,
which are never recorded. -/
theorem extraction_whole_token :
    (∀ pre name post : List Char, validName name = true → notIdentHead post = true →
      String.mk name ∈ cssClassMatches (pre ++ dot :: (name ++ post))) ∧
    (∀ (s : List Char) (nm : String), nm ∈ cssClassMatches s →
      ∃ d ns u v, nm = String.mk (d :: ns) ∧ validName (d :: ns) = true ∧
        s = u ++ dot :: (d :: ns ++ v) ∧ notIdentHead v = true) ∧
    (∀ (ign : List String) (fs : List (List Char)),
      (obfuscateCSSRun ign initState fs).1.mapping.map Prod.fst =
        discoverGo ign [] (cssCandidates fs)) ∧
    (∀ (ign : List String) (x : String) (xs : List String),
      discoverGo ign [] (x :: xs) =
        if skipName ign [] x then discoverGo ign [] xs
        else x :: (discoverGo ign [] xs).filter (fun y => !(decide (y = x)))) ∧
    (∀ (ign l seen : List String), (discoverGo ign seen l).Nodup) ∧
    (∀ (ign l : List String) (a : String),
      a ∈ discoverGo ign [] l ↔ (a ∈ l ∧ skipName ign [] a = false)) := by
  refine ⟨?_, ?_, ?_, ?_, ?_, ?_⟩
  · intro pre name post hv hp
    rw [cssClassMatches]
    exact cssScan_complete _ pre name post le_rfl hv hp
  · intro s nm h
    rw [cssClassMatches] at h
    exact cssScan_sound _ s nm h
  · intro ign fs
    have h := obfuscateCSSRun_keys ign fs initState
    simpa [initState] using h
  · intro ign x xs
    exact discoverGo_first_occurrence ign x xs
  · intro ign l seen
    exact discoverGo_nodup ign l seen
  · intro ign l a
    exact mem_discoverGo ign l [] a

/-- Witness for the amended C8: `btn-primary`, preceded by other text and
followed by a block opener, is extracted whole. -/
theorem extraction_whole_token_witness :
    validName "btn-primary".toList = true ∧
    notIdentHead "\x7bcolor:red\x7d".toList = true ∧
    String.mk "btn-primary".toList ∈
      cssClassMatches
        (".x\x7by\x7d".toList ++ dot :: ("btn-primary".toList ++ "\x7bcolor:red\x7d".toList)) :=
  ⟨by decide, by decide, extraction_whole_token.1 _ _ _ (by decide) (by decide)⟩

end AstroObfuscation
